import Mathlib

/-!
Verification of the NanChat performance-helper utilities.

This file gives a shallow embedding of the performance helpers of the
repository and proves the spec-level properties about them:

  * lazyWithRetry (src/utils/performance.ts, lines 12-35): a bounded
    retry loop around a dynamic import.  The asynchronous loop is
    embedded as a pure recursion over the number of remaining retries;
    the import operation is modelled as a function from the attempt
    index to an Except value, and the wall-clock times at which the
    attempts happen are computed explicitly (setTimeout with a fixed
    interval fires no earlier than the interval, so the model uses the
    exact interval, which realises the lower bound).

  * memoize (src/utils/performance.ts, lines 150-167): the Map-backed
    cache is embedded as an insertion-ordered association list with
    the exact get/has/set behaviour of a JS Map.

  * debounce and throttle (src/utils/performance.ts, lines 50-80):
    the single-threaded event loop is embedded as a step function over
    an explicit state that records the pending setTimeout timers; a
    call sequence is a list of (time, argument) pairs processed in
    order, and due timers fire before a call arriving at a later or
    equal time is processed.

  * manualChunks (vite.config.ts, lines 108-138): embedded directly,
    with the JS String.prototype.includes modelled as substring search
    on character lists.

  * deepEqual (src/hooks/use-optimized-memo.ts, lines 30-50): JS values
    are embedded as a nested inductive type covering undefined, null,
    numbers, strings, booleans, arrays and plain objects; property
    lookup, Object.keys and the loose/strict equality tests used by the
    function are embedded faithfully (numbers are modelled as integers,
    which excludes NaN; reference equality of two distinct composite
    values is modelled as false).
-/

/-! ## lazyWithRetry (src/utils/performance.ts) -/

/-- One run of the inner attemptImport loop of lazyWithRetry.  The
modelled import operation imp gives the outcome of its k-th invocation
(0-indexed).  The argument t is the wall-clock time of the current
attempt; a failed attempt with retries left schedules the next attempt
interval later (setTimeout).  The result is the final outcome of the
promise together with the list of times at which the import operation
was invoked. -/
def attemptImport {E M : Type} (imp : Nat → Except E M) (interval : Nat) :
    Nat → Nat → Nat → Except E M × List Nat
  | t, k, attemptsLeft =>
    match imp k, attemptsLeft with
    | Except.ok m, _ => (Except.ok m, [t])
    | Except.error e, 0 => (Except.error e, [t])
    | Except.error _, n + 1 =>
      let rest := attemptImport imp interval (t + interval) (k + 1) n
      (rest.1, t :: rest.2)

/-- lazyWithRetry starts the attemptImport loop with attemptsLeft set
to the retry count; the first attempt happens immediately (time 0).
In the source the defaults are retries = 3 and interval = 1000. -/
def lazyWithRetry {E M : Type} (imp : Nat → Except E M)
    (retries interval : Nat) : Except E M × List Nat :=
  attemptImport imp interval 0 0 retries

theorem attemptImport_ok {E M : Type} {imp : Nat → Except E M}
    {k : Nat} {m : M} (interval t n : Nat) (hm : imp k = Except.ok m) :
    attemptImport imp interval t k n = (Except.ok m, [t]) := by
  rw [attemptImport.eq_def]
  cases n <;> simp [hm]

theorem attemptImport_error_zero {E M : Type} {imp : Nat → Except E M}
    {k : Nat} {e : E} (interval t : Nat) (he : imp k = Except.error e) :
    attemptImport imp interval t k 0 = (Except.error e, [t]) := by
  rw [attemptImport.eq_def]
  simp [he]

theorem attemptImport_error_succ {E M : Type} {imp : Nat → Except E M}
    {k : Nat} {e : E} (interval t n : Nat) (he : imp k = Except.error e) :
    attemptImport imp interval t k (n + 1)
      = ((attemptImport imp interval (t + interval) (k + 1) n).1,
         t :: (attemptImport imp interval (t + interval) (k + 1) n).2) := by
  rw [attemptImport.eq_def]
  simp [he]

theorem attemptImport_head {E M : Type} (imp : Nat → Except E M)
    (interval t k n : Nat) :
    (attemptImport imp interval t k n).2.head? = some t := by
  cases h : imp k with
  | ok m =>
    rw [attemptImport_ok interval t n h]
    rfl
  | error e =>
    cases n with
    | zero =>
      rw [attemptImport_error_zero interval t h]
      rfl
    | succ n =>
      rw [attemptImport_error_succ interval t n h]
      rfl

theorem attemptImport_fail_spec {E M : Type} (imp : Nat → Except E M)
    (interval : Nat) (hfail : ∀ j, ∃ e, imp j = Except.error e) :
    ∀ (N t k : Nat),
      (attemptImport imp interval t k N).2.length = N + 1 ∧
      List.Chain' (fun a b => a + interval ≤ b)
        (attemptImport imp interval t k N).2 ∧
      ∃ e, (attemptImport imp interval t k N).1 = Except.error e := by
  intro N
  induction N with
  | zero =>
    intro t k
    obtain ⟨e, he⟩ := hfail k
    refine ⟨?_, ?_, e, ?_⟩ <;> rw [attemptImport_error_zero interval t he] <;> simp
  | succ n ih =>
    intro t k
    obtain ⟨e, he⟩ := hfail k
    obtain ⟨hlen, hchain, e2, he2⟩ := ih (t + interval) (k + 1)
    refine ⟨?_, ?_, e2, ?_⟩
    · rw [attemptImport_error_succ interval t n he]
      simp [hlen]
    · have hhead := attemptImport_head imp interval (t + interval) (k + 1) n
      rw [attemptImport_error_succ interval t n he]
      rw [List.chain'_cons']
      refine ⟨?_, hchain⟩
      intro y hy
      rw [hhead] at hy
      simp only [Option.mem_def, Option.some.injEq] at hy
      omega
    · rw [attemptImport_error_succ interval t n he]
      exact he2

/-- C1: for an import operation that fails on every attempt and a retry
count N, lazyWithRetry invokes the import operation exactly N+1 times
before surfacing failure, and consecutive attempts are separated by at
least the configured interval. -/
theorem lazyWithRetry_failing_attempts {E M : Type} (imp : Nat → Except E M)
    (N interval : Nat) (hfail : ∀ j, ∃ e, imp j = Except.error e) :
    (lazyWithRetry imp N interval).2.length = N + 1 ∧
    List.Chain' (fun a b => a + interval ≤ b) (lazyWithRetry imp N interval).2 ∧
    ∃ e, (lazyWithRetry imp N interval).1 = Except.error e :=
  attemptImport_fail_spec imp interval hfail N 0 0

/-- Witness for C1: two retries, an operation failing on every attempt,
interval 10: three attempts at times 0, 10, 20, failing with the error
of the last attempt. -/
theorem lazyWithRetry_failing_attempts_witness :
    (lazyWithRetry (fun k => (Except.error k : Except Nat Unit)) 2 10).2.length = 2 + 1 ∧
    List.Chain' (fun a b => a + 10 ≤ b)
      (lazyWithRetry (fun k => (Except.error k : Except Nat Unit)) 2 10).2 ∧
    ∃ e, (lazyWithRetry (fun k => (Except.error k : Except Nat Unit)) 2 10).1
      = Except.error e :=
  lazyWithRetry_failing_attempts (fun k => (Except.error k : Except Nat Unit)) 2 10
    (fun j => ⟨j, rfl⟩)

theorem attemptImport_last_error {E M : Type} (imp : Nat → Except E M)
    (interval : Nat) (errs : Nat → E) :
    ∀ (N k t : Nat), (∀ j, k ≤ j → j ≤ k + N → imp j = Except.error (errs j)) →
      (attemptImport imp interval t k N).1 = Except.error (errs (k + N)) := by
  intro N
  induction N with
  | zero =>
    intro k t h
    have hk := h k (Nat.le_refl k) (Nat.le_refl k)
    rw [attemptImport_error_zero interval t hk]
    simp
  | succ n ih =>
    intro k t h
    have hk := h k (Nat.le_refl k) (Nat.le_add_right k (n + 1))
    have hrest := ih (k + 1) (t + interval) (fun j h1 h2 => h j (by omega) (by omega))
    rw [attemptImport_error_succ interval t n hk]
    dsimp only
    rw [hrest]
    congr 2
    omega

/-- C2: behaviour of the promise produced by lazyWithRetry.  First, a
failed attempt with retries remaining schedules another attempt after
the delay instead of failing (the outcome is that of the retried loop
and the attempt is recorded).  Second, if every attempt up to the retry
bound fails, the promise is rejected with the error of the final
attempt.  Third, an attempt that succeeds resolves the promise
with the imported module immediately. -/
theorem lazyWithRetry_outcomes {E M : Type} (imp : Nat → Except E M)
    (interval N : Nat) :
    (∀ t k n e, imp k = Except.error e →
      attemptImport imp interval t k (n + 1)
        = ((attemptImport imp interval (t + interval) (k + 1) n).1,
           t :: (attemptImport imp interval (t + interval) (k + 1) n).2)) ∧
    (∀ errs : Nat → E, (∀ j, j ≤ N → imp j = Except.error (errs j)) →
      (lazyWithRetry imp N interval).1 = Except.error (errs N)) ∧
    (∀ t k n m, imp k = Except.ok m →
      attemptImport imp interval t k n = (Except.ok m, [t])) := by
  refine ⟨?_, ?_, ?_⟩
  · intro t k n e he
    exact attemptImport_error_succ interval t n he
  · intro errs h
    have := attemptImport_last_error imp interval errs N 0 0
      (fun j h1 h2 => h j (by omega))
    simpa [lazyWithRetry] using this
  · intro t k n m hm
    exact attemptImport_ok interval t n hm

/-- Witness for C2: concrete instantiations of the three conjuncts. -/
theorem lazyWithRetry_outcomes_witness :
    (attemptImport (fun k => (Except.error k : Except Nat Unit)) 10 0 0 (1 + 1)
      = ((attemptImport (fun k => (Except.error k : Except Nat Unit)) 10 10 1 1).1,
         0 :: (attemptImport (fun k => (Except.error k : Except Nat Unit)) 10 10 1 1).2)) ∧
    (lazyWithRetry (fun k => (Except.error k : Except Nat Unit)) 2 10).1
      = Except.error 2 ∧
    attemptImport (fun _ => (Except.ok () : Except Nat Unit)) 10 7 0 3
      = (Except.ok (), [7]) := by
  refine ⟨?_, ?_, ?_⟩
  · exact (lazyWithRetry_outcomes (fun k => (Except.error k : Except Nat Unit)) 10 2).1
      0 0 1 0 rfl
  · exact (lazyWithRetry_outcomes (fun k => (Except.error k : Except Nat Unit)) 10 2).2.1
      (fun j => j) (fun j _ => rfl)
  · exact (lazyWithRetry_outcomes (fun _ => (Except.ok () : Except Nat Unit)) 10 2).2.2
      7 0 3 () rfl

/-! ## memoize (src/utils/performance.ts) -/

/-- Lookup in the memoization cache, modelling both Map.has and
Map.get of the JS Map used by memoize.  The cache is an
insertion-ordered association list. -/
def cacheGet {V : Type} : List (String × V) → String → Option V
  | [], _ => none
  | p :: rest, k => if p.1 = k then some p.2 else cacheGet rest k

/-- Map.set of the JS Map: replace the value of an existing key in
place, otherwise append the new entry at the end. -/
def cacheSet {V : Type} : List (String × V) → String → V → List (String × V)
  | [], k, v => [(k, v)]
  | p :: rest, k, v => if p.1 = k then (k, v) :: rest else p :: cacheSet rest k v

/-- One call of the function returned by memoize: compute the key with
getKey (the default getKey of the source, JSON.stringify of the
argument list, is one instance of this parameter), return the cached
value on a hit, otherwise invoke fn and store the result.  The third
component records whether the underlying fn was invoked by this
call. -/
def memoizeCall {A V : Type} (fn : A → V) (getKey : A → String)
    (cache : List (String × V)) (args : A) : V × List (String × V) × Bool :=
  let key := getKey args
  match cacheGet cache key with
  | some v => (v, cache, false)
  | none =>
    let result := fn args
    (result, cacheSet cache key result, true)

/-- The cache produced by a sequence of calls of a memoized function. -/
def memoizeRun {A V : Type} (fn : A → V) (getKey : A → String) :
    List (String × V) → List A → List (String × V)
  | cache, [] => cache
  | cache, a :: rest =>
    memoizeRun fn getKey (memoizeCall fn getKey cache a).2.1 rest

theorem cacheGet_cacheSet_self {V : Type} (c : List (String × V))
    (k : String) (v : V) : cacheGet (cacheSet c k v) k = some v := by
  induction c with
  | nil => simp [cacheSet, cacheGet]
  | cons p rest ih =>
    by_cases h : p.1 = k
    · simp [cacheSet, cacheGet, h]
    · simp [cacheSet, cacheGet, h, ih]

theorem cacheGet_cacheSet_other {V : Type} (c : List (String × V))
    (k k2 : String) (v : V) (hne : k ≠ k2) :
    cacheGet (cacheSet c k v) k2 = cacheGet c k2 := by
  induction c with
  | nil => simp [cacheSet, cacheGet, hne]
  | cons p rest ih =>
    by_cases h : p.1 = k
    · simp [cacheSet, cacheGet, h, hne]
    · simp only [cacheSet, if_neg h]
      by_cases h2 : p.1 = k2
      · simp [cacheGet, h2]
      · simp [cacheGet, h2, ih]

/-- After a call with argument a, the cache maps the key of a to the
value that the call returned. -/
theorem memoizeCall_cacheGet {A V : Type} (fn : A → V) (getKey : A → String)
    (cache : List (String × V)) (a : A) :
    cacheGet (memoizeCall fn getKey cache a).2.1 (getKey a)
      = some (memoizeCall fn getKey cache a).1 := by
  cases h : cacheGet cache (getKey a) with
  | some v => simp [memoizeCall, h]
  | none => simp [memoizeCall, h, cacheGet_cacheSet_self]

/-- C3: two successive calls of a memoized function whose argument
lists produce the same cache key: the second call returns exactly the
value returned (and cached) by the first call, does not invoke the
underlying fn, and leaves the cache unchanged. -/
theorem memoize_second_call_cached {A V : Type} (fn : A → V)
    (getKey : A → String) (cache : List (String × V)) (a1 a2 : A)
    (hkey : getKey a1 = getKey a2) :
    (memoizeCall fn getKey (memoizeCall fn getKey cache a1).2.1 a2).1
      = (memoizeCall fn getKey cache a1).1 ∧
    (memoizeCall fn getKey (memoizeCall fn getKey cache a1).2.1 a2).2.2 = false ∧
    (memoizeCall fn getKey (memoizeCall fn getKey cache a1).2.1 a2).2.1
      = (memoizeCall fn getKey cache a1).2.1 := by
  have h1 := memoizeCall_cacheGet fn getKey cache a1
  rw [hkey] at h1
  set c1 := (memoizeCall fn getKey cache a1).2.1 with hc1
  set v1 := (memoizeCall fn getKey cache a1).1 with hv1
  refine ⟨?_, ?_, ?_⟩ <;>
    simp [memoizeCall, h1]

/-- Witness for C3 at a concrete function and argument pair. -/
theorem memoize_second_call_cached_witness :
    (memoizeCall (fun n : Nat => n * n) (fun n => toString n)
      (memoizeCall (fun n : Nat => n * n) (fun n => toString n) [] 3).2.1 3).1
      = (memoizeCall (fun n : Nat => n * n) (fun n => toString n) [] 3).1 ∧
    (memoizeCall (fun n : Nat => n * n) (fun n => toString n)
      (memoizeCall (fun n : Nat => n * n) (fun n => toString n) [] 3).2.1 3).2.2
      = false ∧
    (memoizeCall (fun n : Nat => n * n) (fun n => toString n)
      (memoizeCall (fun n : Nat => n * n) (fun n => toString n) [] 3).2.1 3).2.1
      = (memoizeCall (fun n : Nat => n * n) (fun n => toString n) [] 3).2.1 :=
  memoize_second_call_cached (fun n : Nat => n * n) (fun n => toString n) [] 3 3 rfl

/-- One memoized call never removes a cache entry and never changes a
stored value. -/
theorem memoizeCall_monotone {A V : Type} (fn : A → V) (getKey : A → String)
    (cache : List (String × V)) (a : A) (k : String) (v : V)
    (h : cacheGet cache k = some v) :
    cacheGet (memoizeCall fn getKey cache a).2.1 k = some v := by
  cases hc : cacheGet cache (getKey a) with
  | some w => simpa [memoizeCall, hc] using h
  | none =>
    by_cases hk : getKey a = k
    · rw [hk] at hc
      rw [hc] at h
      cases h
    · simp [memoizeCall, hc, cacheGet_cacheSet_other _ _ _ _ hk, h]

/-- C6: the memoization cache only grows.  Once a key holds a value,
every later point of any call sequence still holds exactly that value,
and a later call whose argument produces that key is a cache hit that
returns the stored value without invoking the underlying function. -/
theorem memoize_cache_monotone {A V : Type} (fn : A → V) (getKey : A → String)
    (cache : List (String × V)) (calls : List A) (k : String) (v : V)
    (h : cacheGet cache k = some v) :
    cacheGet (memoizeRun fn getKey cache calls) k = some v ∧
    (∀ a, getKey a = k →
      memoizeCall fn getKey (memoizeRun fn getKey cache calls) a
        = (v, memoizeRun fn getKey cache calls, false)) := by
  have hrun : ∀ (calls : List A) (cache : List (String × V)),
      cacheGet cache k = some v →
      cacheGet (memoizeRun fn getKey cache calls) k = some v := by
    intro calls
    induction calls with
    | nil => intro cache h; exact h
    | cons a rest ih =>
      intro cache h
      exact ih _ (memoizeCall_monotone fn getKey cache a k v h)
  refine ⟨hrun calls cache h, ?_⟩
  intro a hk
  have h2 := hrun calls cache h
  simp [memoizeCall, hk, h2]

/-- Witness for C6: a key cached at the start survives two further
calls and a later same-key call is a pure cache hit. -/
theorem memoize_cache_monotone_witness :
    cacheGet (memoizeRun (fun n : Nat => n + 1) (fun n => toString n)
      [("5", 6)] [7, 5]) "5" = some 6 ∧
    (∀ a, toString a = "5" →
      memoizeCall (fun n : Nat => n + 1) (fun n => toString n)
        (memoizeRun (fun n : Nat => n + 1) (fun n => toString n) [("5", 6)] [7, 5]) a
        = (6, memoizeRun (fun n : Nat => n + 1) (fun n => toString n) [("5", 6)] [7, 5],
           false)) :=
  memoize_cache_monotone (fun n : Nat => n + 1) (fun n => toString n)
    [("5", 6)] [7, 5] "5" 6 (by simp [cacheGet])

/-- One call of the memoized function when the underlying function can
throw: a thrown error propagates before cache.set is reached, so the
error branch leaves the cache unchanged.  The third component again
records whether fn was invoked. -/
def memoizeCallExc {A V E : Type} (fn : A → Except E V) (getKey : A → String)
    (cache : List (String × V)) (args : A) :
    Except E V × List (String × V) × Bool :=
  let key := getKey args
  match cacheGet cache key with
  | some v => (Except.ok v, cache, false)
  | none =>
    match fn args with
    | Except.error e => (Except.error e, cache, true)
    | Except.ok result => (Except.ok result, cacheSet cache key result, true)

/-- C10: if the underlying function throws on a cache miss, the error
propagates, the cache is unchanged (no entry is added for the key), and
a subsequent call with the same key re-invokes the underlying function
(whatever it now is) instead of returning anything cached. -/
theorem memoize_throw_not_cached {A V E : Type} (fn : A → Except E V)
    (getKey : A → String) (cache : List (String × V)) (a : A) (e : E)
    (hmiss : cacheGet cache (getKey a) = none) (hthrow : fn a = Except.error e) :
    memoizeCallExc fn getKey cache a = (Except.error e, cache, true) ∧
    (∀ (fn2 : A → Except E V) (a2 : A), getKey a2 = getKey a →
      (memoizeCallExc fn2 getKey cache a2).2.2 = true ∧
      (memoizeCallExc fn2 getKey cache a2).1 = fn2 a2) := by
  refine ⟨by simp [memoizeCallExc, hmiss, hthrow], ?_⟩
  intro fn2 a2 hk
  have hmiss2 : cacheGet cache (getKey a2) = none := by rw [hk]; exact hmiss
  constructor <;>
    · cases h2 : fn2 a2 <;> simp [memoizeCallExc, hmiss2, h2]

/-- Witness for C10: a function that throws on argument 4 with an empty
cache, then a successful second call with the same key. -/
theorem memoize_throw_not_cached_witness :
    memoizeCallExc (fun _ : Nat => (Except.error "boom" : Except String Nat))
      (fun n => toString n) [] 4 = (Except.error "boom", [], true) ∧
    (∀ (fn2 : Nat → Except String Nat) (a2 : Nat), toString a2 = toString 4 →
      (memoizeCallExc fn2 (fun n => toString n) [] a2).2.2 = true ∧
      (memoizeCallExc fn2 (fun n => toString n) [] a2).1 = fn2 a2) :=
  memoize_throw_not_cached (fun _ : Nat => (Except.error "boom" : Except String Nat))
    (fun n => toString n) [] 4 "boom" rfl rfl

/-! ## debounce and throttle (src/utils/performance.ts)

The event loop is modelled explicitly.  A call sequence is a list of
(time, argument) pairs handed to the wrapped function in order of
nondecreasing time.  The state records the setTimeout timers currently
pending in the host runtime together with the closure variables of the
wrapper (the timeout handle for debounce, the inThrottle flag for
throttle).  Before a call arriving at time t is processed, every
pending timer whose deadline is at most t fires. -/

/-- State of one debounce-wrapped function instance: the id counter the
host uses for setTimeout handles, the pending timers (id, deadline,
captured arguments), and the closure variable timeout (the handle of
the last scheduled timer, null initially and after the timer runs). -/
structure DebounceState (A : Type) where
  nextId : Nat
  timers : List (Nat × Nat × A)
  timeoutHandle : Option Nat

/-- Fire every pending timer whose deadline is at most t.  The timer
callback (later in the source) sets the timeout variable to null and
invokes the wrapped function with the captured arguments; the fired
timer leaves the pending set.  Returns the new state and the list of
invocations (time, arguments). -/
def debounceFire {A : Type} (t : Nat) (s : DebounceState A) :
    DebounceState A × List (Nat × A) :=
  let due := s.timers.filter (fun x => decide (x.2.1 ≤ t))
  ({ nextId := s.nextId
     timers := s.timers.filter (fun x => decide (¬ x.2.1 ≤ t))
     timeoutHandle := if due.isEmpty then s.timeoutHandle else none },
   due.map (fun x => (x.2.1, x.2.2)))

/-- The body of executedFunction in debounce: clearTimeout on the
stored handle (a no-op if that timer already fired), then schedule
later to run wait after the current time and store the new handle. -/
def debounceCall {A : Type} (wait : Nat) (s : DebounceState A)
    (t : Nat) (args : A) : DebounceState A :=
  let timers1 := match s.timeoutHandle with
    | some id => s.timers.filter (fun x => decide (x.1 ≠ id))
    | none => s.timers
  { nextId := s.nextId + 1
    timers := timers1 ++ [(s.nextId, t + wait, args)]
    timeoutHandle := some s.nextId }

/-- Processing of one call event: due timers fire first, then the call
body runs. -/
def debounceStep {A : Type} (wait : Nat) (s : DebounceState A)
    (ev : Nat × A) : DebounceState A × List (Nat × A) :=
  let fired := debounceFire ev.1 s
  (debounceCall wait fired.1 ev.1 ev.2, fired.2)

def debounceInit {A : Type} : DebounceState A := ⟨0, [], none⟩

/-- Run a call sequence from a state, collecting all invocations of the
wrapped function in order. -/
def debounceRun {A : Type} (wait : Nat) :
    DebounceState A → List (Nat × A) → DebounceState A × List (Nat × A)
  | s, [] => (s, [])
  | s, ev :: rest =>
    let st := debounceStep wait s ev
    let r := debounceRun wait st.1 rest
    (r.1, st.2 ++ r.2)

/-- All invocations produced by a call sequence, including the timers
still pending when the sequence ends (they fire once time passes their
deadline with no further calls). -/
def debounceOutputs {A : Type} (wait : Nat) (calls : List (Nat × A)) :
    List (Nat × A) :=
  let r := debounceRun wait debounceInit calls
  r.2 ++ r.1.timers.map (fun x => (x.2.1, x.2.2))

/-- The states visited by a call sequence: the initial state and the
state after each processed call. -/
def debounceStates {A : Type} (wait : Nat) :
    DebounceState A → List (Nat × A) → List (DebounceState A)
  | s, [] => [s]
  | s, ev :: rest => s :: debounceStates wait (debounceStep wait s ev).1 rest

/-- Reachable debounce states keep the pending timer set in lockstep
with the closure variable: either no timer is pending, or exactly the
timer whose handle is stored in the timeout variable is pending. -/
def DebounceInv {A : Type} (s : DebounceState A) : Prop :=
  s.timers = [] ∨
  ∃ id ft a, s.timeoutHandle = some id ∧ s.timers = [(id, ft, a)]

/-- State of one throttle-wrapped function instance: the closure
variable inThrottle (initially undefined, hence falsy) and the pending
reset timers (deadlines of the scheduled inThrottle = false
callbacks). -/
structure ThrottleState where
  inThrottle : Bool
  timers : List Nat

/-- Fire every pending reset timer whose deadline is at most t; each
one sets inThrottle to false. -/
def throttleFire (t : Nat) (s : ThrottleState) : ThrottleState :=
  { inThrottle :=
      if (s.timers.filter (fun ft => decide (ft ≤ t))).isEmpty
      then s.inThrottle else false
    timers := s.timers.filter (fun ft => decide (¬ ft ≤ t)) }

/-- Processing of one call event at time ev.1: due reset timers fire
first; then, if inThrottle is falsy, the wrapped function is invoked
with the arguments of this call, inThrottle is set, and a reset timer
is scheduled limit later; otherwise the call is dropped. -/
def throttleStep {A : Type} (limit : Nat) (s : ThrottleState)
    (ev : Nat × A) : ThrottleState × List (Nat × A) :=
  let s1 := throttleFire ev.1 s
  if s1.inThrottle then (s1, [])
  else ({ inThrottle := true, timers := s1.timers ++ [ev.1 + limit] }, [ev])

def throttleInit : ThrottleState := ⟨false, []⟩

def throttleRun {A : Type} (limit : Nat) :
    ThrottleState → List (Nat × A) → ThrottleState × List (Nat × A)
  | s, [] => (s, [])
  | s, ev :: rest =>
    let st := throttleStep limit s ev
    let r := throttleRun limit st.1 rest
    (r.1, st.2 ++ r.2)

/-- All invocations produced by a call sequence (the trailing reset
timer produces no invocation). -/
def throttleOutputs {A : Type} (limit : Nat) (calls : List (Nat × A)) :
    List (Nat × A) :=
  (throttleRun limit throttleInit calls).2

def throttleStates {A : Type} (limit : Nat) :
    ThrottleState → List (Nat × A) → List ThrottleState
  | s, [] => [s]
  | s, ev :: rest => s :: throttleStates limit (throttleStep limit s ev).1 rest

/-- Reachable throttle states: the window flag is set exactly when one
reset timer is pending. -/
def ThrottleInv (s : ThrottleState) : Prop :=
  (s.inThrottle = false ∧ s.timers = []) ∨
  (s.inThrottle = true ∧ ∃ r, s.timers = [r])

theorem getLastD_map {A B : Type} (f : A → B) (l : List A) (d : A) :
    (l.map f).getLastD (f d) = f (l.getLastD d) := by
  induction l generalizing d with
  | nil => rfl
  | cons x xs ih =>
    rw [List.map_cons, List.getLastD_cons, List.getLastD_cons, ih]

/-- While every next call arrives strictly before the pending deadline,
no timer ever fires: each call cancels the pending timer and schedules
a fresh one wait after its own time, so a run from a single pending
timer produces no invocation and ends with exactly one pending timer,
for the last call. -/
theorem debounceRun_pending {A : Type} (wait : Nat) :
    ∀ (calls : List (Nat × A)) (n ft : Nat) (b : A),
      (∀ q ∈ calls.head?, q.1 < ft) →
      List.Chain' (fun p q => q.1 < p.1 + wait) calls →
      debounceRun wait ⟨n + 1, [(n, ft, b)], some n⟩ calls
        = (⟨n + 1 + calls.length,
            [(n + calls.length,
              ((calls.map (fun p => (p.1 + wait, p.2))).getLastD (ft, b)).1,
              ((calls.map (fun p => (p.1 + wait, p.2))).getLastD (ft, b)).2)],
            some (n + calls.length)⟩, ([] : List (Nat × A))) := by
  intro calls
  induction calls with
  | nil =>
    intro n ft b hhead hchain
    simp [debounceRun]
  | cons ev rest ih =>
    intro n ft b hhead hchain
    obtain ⟨t, a⟩ := ev
    have ht : t < ft := hhead (t, a) (by simp)
    have hnotdue : ¬ ft ≤ t := by omega
    rw [List.chain'_cons'] at hchain
    obtain ⟨hnext, hchain⟩ := hchain
    have hstep : debounceStep wait ⟨n + 1, [(n, ft, b)], some n⟩ (t, a)
        = (⟨n + 2, [(n + 1, t + wait, a)], some (n + 1)⟩, []) := by
      simp [debounceStep, debounceFire, debounceCall, hnotdue]
    have hhead2 : ∀ q ∈ rest.head?, q.1 < t + wait := by
      intro q hq
      exact hnext q hq
    have := ih (n + 1) (t + wait) a hhead2 hchain
    simp only [debounceRun, hstep, this]
    refine Prod.ext ?_ (by simp)
    simp only [List.map_cons, List.getLastD_cons, List.length_cons]
    refine DebounceState.mk.injEq .. ▸ ?_
    simp
    omega

/-- C4: a nonempty call sequence whose consecutive calls are issued at
intervals strictly less than wait produces exactly one invocation of
the wrapped function, at the time of the last call plus wait (the quiet
period), with the arguments of the last call. -/
theorem debounce_single_invocation {A : Type} (wait : Nat) (c : Nat × A)
    (rest : List (Nat × A))
    (hgap : List.Chain' (fun p q => p.1 ≤ q.1 ∧ q.1 < p.1 + wait) (c :: rest)) :
    debounceOutputs wait (c :: rest)
      = [((rest.getLastD c).1 + wait, (rest.getLastD c).2)] := by
  obtain ⟨t, a⟩ := c
  have hgap2 : List.Chain' (fun p q : Nat × A => q.1 < p.1 + wait) ((t, a) :: rest) :=
    hgap.imp (fun p q h => h.2)
  rw [List.chain'_cons'] at hgap2
  obtain ⟨hnext, hchain⟩ := hgap2
  have hstep : debounceStep wait (debounceInit (A := A)) (t, a)
      = (⟨1, [(0, t + wait, a)], some 0⟩, []) := by
    simp [debounceStep, debounceFire, debounceCall, debounceInit]
  have hrun := debounceRun_pending wait rest 0 (t + wait) a hnext hchain
  unfold debounceOutputs
  simp only [debounceRun, hstep, hrun]
  have hlast : (rest.map (fun p : Nat × A => (p.1 + wait, p.2))).getLastD (t + wait, a)
      = ((rest.getLastD (t, a)).1 + wait, (rest.getLastD (t, a)).2) := by
    have := getLastD_map (fun p : Nat × A => (p.1 + wait, p.2)) rest (t, a)
    exact this
  rw [hlast]
  simp

/-- Witness for C4: calls at times 0 and 5 with wait 10 produce the
single invocation (15, second argument). -/
theorem debounce_single_invocation_witness :
    debounceOutputs 10 [(0, "a"), (5, "b")] = [(15, "b")] := by
  have := debounce_single_invocation 10 (0, "a") [(5, "b")]
    (by simp [List.chain'_cons'])
  simpa using this

/-- Run of a throttle-wrapped function from an open window whose reset
timer is due at r, over strictly time-increasing calls: the produced
invocations form a subsequence of the calls, all of them happen at or
after r, and consecutive invocations are at least limit apart. -/
theorem throttleRun_window {A : Type} (limit : Nat) :
    ∀ (calls : List (Nat × A)) (r : Nat),
      List.Chain' (fun p q : Nat × A => p.1 < q.1) calls →
      (throttleRun limit ⟨true, [r]⟩ calls).2.Sublist calls ∧
      (∀ x ∈ (throttleRun limit ⟨true, [r]⟩ calls).2, r ≤ x.1) ∧
      List.Chain' (fun p q : Nat × A => p.1 + limit ≤ q.1)
        (throttleRun limit ⟨true, [r]⟩ calls).2 := by
  intro calls
  induction calls with
  | nil =>
    intro r hchain
    simp [throttleRun]
  | cons ev rest ih =>
    intro r hchain
    obtain ⟨t, a⟩ := ev
    rw [List.chain'_cons'] at hchain
    obtain ⟨hnext, hchain⟩ := hchain
    by_cases hr : r ≤ t
    · have hstep : throttleStep limit ⟨true, [r]⟩ ((t, a) : Nat × A)
          = (⟨true, [t + limit]⟩, [(t, a)]) := by
        simp [throttleStep, throttleFire, hr]
      obtain ⟨hsub, hbound, hchain2⟩ := ih (t + limit) hchain
      simp only [throttleRun, hstep]
      refine ⟨List.Sublist.cons₂ _ hsub, ?_, ?_⟩
      · intro x hx
        simp only [List.singleton_append, List.mem_cons] at hx
        rcases hx with rfl | hx
        · exact hr
        · have := hbound x hx
          omega
      · simp only [List.singleton_append]
        rw [List.chain'_cons']
        refine ⟨?_, hchain2⟩
        intro y hy
        exact hbound y (List.mem_of_mem_head? hy)
    · have htr : t < r := by omega
      have hstep : throttleStep limit ⟨true, [r]⟩ ((t, a) : Nat × A)
          = (⟨true, [r]⟩, []) := by
        simp [throttleStep, throttleFire, hr, htr]
      obtain ⟨hsub, hbound, hchain2⟩ := ih r hchain
      simp only [throttleRun, hstep, List.nil_append]
      exact ⟨hsub.cons _, hbound, hchain2⟩

/-- C5: over a call sequence issued at strictly increasing times with
consecutive gaps strictly less than limit, the wrapped function fires
on the leading (first) call, any two invocations are at least limit
apart, and the invocations are a subsequence of the calls (every other
call is dropped without invocation). -/
theorem throttle_leading_edge {A : Type} (limit : Nat) (calls : List (Nat × A))
    (hgap : List.Chain' (fun p q : Nat × A => p.1 < q.1 ∧ q.1 < p.1 + limit) calls) :
    (throttleOutputs limit calls).head? = calls.head? ∧
    List.Chain' (fun p q : Nat × A => p.1 + limit ≤ q.1)
      (throttleOutputs limit calls) ∧
    (throttleOutputs limit calls).Sublist calls := by
  have hinc : List.Chain' (fun p q : Nat × A => p.1 < q.1) calls :=
    hgap.imp (fun p q h => h.1)
  cases calls with
  | nil => simp [throttleOutputs, throttleRun]
  | cons ev rest =>
    obtain ⟨t, a⟩ := ev
    rw [List.chain'_cons'] at hinc
    obtain ⟨hnext, hchain⟩ := hinc
    have hstep : throttleStep limit throttleInit ((t, a) : Nat × A)
        = (⟨true, [t + limit]⟩, [(t, a)]) := by
      simp [throttleStep, throttleFire, throttleInit]
    obtain ⟨hsub, hbound, hchain2⟩ := throttleRun_window limit rest (t + limit) hchain
    unfold throttleOutputs
    simp only [throttleRun, hstep, List.singleton_append]
    refine ⟨rfl, ?_, List.Sublist.cons₂ _ hsub⟩
    rw [List.chain'_cons']
    refine ⟨?_, hchain2⟩
    intro y hy
    exact hbound y (List.mem_of_mem_head? hy)

/-- Witness for C5: limit 10 and calls at times 0, 9, 18: the calls at
0 and 18 are invoked (18 is at least 10 after 0), the call at 9 is
dropped. -/
theorem throttle_leading_edge_witness :
    (throttleOutputs 10 [(0, "a"), (9, "b"), (18, "c")]).head?
      = some ((0 : Nat), "a") ∧
    List.Chain' (fun p q : Nat × String => p.1 + 10 ≤ q.1)
      (throttleOutputs 10 [(0, "a"), (9, "b"), (18, "c")]) ∧
    (throttleOutputs 10 [(0, "a"), (9, "b"), (18, "c")]).Sublist
      [(0, "a"), (9, "b"), (18, "c")] := by
  have := throttle_leading_edge 10 [(0, "a"), (9, "b"), (18, "c")]
    (by simp [List.chain'_cons'])
  simpa using this

/-- One debounce call cancels whatever timer was pending and replaces
it: afterwards exactly the freshly scheduled timer (deadline wait after
the call, carrying the arguments of the call) is pending, and the
timeout variable holds its handle. -/
theorem debounceStep_replaces {A : Type} (wait : Nat) (s : DebounceState A)
    (ev : Nat × A) (h : DebounceInv s) :
    (debounceStep wait s ev).1.timers = [(s.nextId, ev.1 + wait, ev.2)] ∧
    (debounceStep wait s ev).1.timeoutHandle = some s.nextId := by
  rcases h with h | ⟨id, ft, a, hh, ht⟩
  · by_cases hdue : (s.timers.filter
        (fun x : Nat × Nat × A => decide (x.2.1 ≤ ev.1))).isEmpty <;>
      rcases hho : s.timeoutHandle with _ | id <;>
      simp [debounceStep, debounceFire, debounceCall, h, hdue, hho]
  · by_cases hdue : ft ≤ ev.1
    · simp [debounceStep, debounceFire, debounceCall, ht, hh, hdue]
    · simp [debounceStep, debounceFire, debounceCall, ht, hh, hdue]

theorem debounceStep_inv {A : Type} (wait : Nat) (s : DebounceState A)
    (ev : Nat × A) (h : DebounceInv s) :
    DebounceInv (debounceStep wait s ev).1 := by
  obtain ⟨ht, hh⟩ := debounceStep_replaces wait s ev h
  exact Or.inr ⟨s.nextId, ev.1 + wait, ev.2, hh, ht⟩

theorem debounceStates_inv {A : Type} (wait : Nat) :
    ∀ (calls : List (Nat × A)) (s : DebounceState A), DebounceInv s →
      ∀ st ∈ debounceStates wait s calls, DebounceInv st := by
  intro calls
  induction calls with
  | nil =>
    intro s hs st hst
    simp only [debounceStates, List.mem_singleton] at hst
    exact hst ▸ hs
  | cons ev rest ih =>
    intro s hs st hst
    simp only [debounceStates, List.mem_cons] at hst
    rcases hst with rfl | hst
    · exact hs
    · exact ih _ (debounceStep_inv wait s ev hs) st hst

theorem throttleStep_inv {A : Type} (limit : Nat) (s : ThrottleState)
    (ev : Nat × A) (h : ThrottleInv s) :
    ThrottleInv (throttleStep limit s ev).1 := by
  rcases h with ⟨hf, ht⟩ | ⟨hf, r, ht⟩
  · right
    refine ⟨?_, ev.1 + limit, ?_⟩ <;>
      simp [throttleStep, throttleFire, hf, ht]
  · by_cases hdue : r ≤ ev.1
    · right
      refine ⟨?_, ev.1 + limit, ?_⟩ <;>
        simp [throttleStep, throttleFire, hf, ht, hdue]
    · right
      have htr : ev.1 < r := by omega
      refine ⟨?_, r, ?_⟩ <;>
        simp [throttleStep, throttleFire, hf, ht, hdue, htr]

theorem throttleStates_inv {A : Type} (limit : Nat) :
    ∀ (calls : List (Nat × A)) (s : ThrottleState), ThrottleInv s →
      ∀ st ∈ throttleStates limit s calls, ThrottleInv st := by
  intro calls
  induction calls with
  | nil =>
    intro s hs st hst
    simp only [throttleStates, List.mem_singleton] at hst
    exact hst ▸ hs
  | cons ev rest ih =>
    intro s hs st hst
    simp only [throttleStates, List.mem_cons] at hst
    rcases hst with rfl | hst
    · exact hs
    · exact ih _ (throttleStep_inv limit s ev hs) st hst

/-- C7: each wrapped function instance keeps at most one pending timer
at any point of any call sequence; a debounce call always cancels and
replaces the pending timer with its own timer, and a throttle call that
arrives while the window is still open after due timers fired is
dropped: the state is untouched (no second timer) and nothing is
invoked. -/
theorem single_pending_timer_slot {A : Type} (wait limit : Nat)
    (calls : List (Nat × A)) :
    (∀ st ∈ debounceStates wait (debounceInit (A := A)) calls,
      st.timers.length ≤ 1) ∧
    (∀ (s : DebounceState A) (ev : Nat × A), DebounceInv s →
      (debounceStep wait s ev).1.timers = [(s.nextId, ev.1 + wait, ev.2)] ∧
      (debounceStep wait s ev).1.timeoutHandle = some s.nextId) ∧
    (∀ st ∈ throttleStates limit throttleInit calls, st.timers.length ≤ 1) ∧
    (∀ (s : ThrottleState) (ev : Nat × A),
      (throttleFire ev.1 s).inThrottle = true →
      throttleStep limit s ev = (throttleFire ev.1 s, [])) := by
  refine ⟨?_, debounceStep_replaces wait, ?_, ?_⟩
  · intro st hst
    have hinv := debounceStates_inv wait calls debounceInit (Or.inl rfl) st hst
    rcases hinv with h | ⟨id, ft, a, _, ht⟩
    · simp [h]
    · simp [ht]
  · intro st hst
    have hinv := throttleStates_inv limit calls throttleInit
      (Or.inl ⟨rfl, rfl⟩) st hst
    rcases hinv with ⟨_, ht⟩ | ⟨_, r, ht⟩
    · simp [ht]
    · simp [ht]
  · intro s ev hopen
    simp [throttleStep, hopen]

/-- Witness for C7 at wait 10, limit 10, two concrete calls, and the
parts with hypotheses applied at concrete states. -/
theorem single_pending_timer_slot_witness :
    (∀ st ∈ debounceStates 10 (debounceInit (A := String)) [(0, "a"), (5, "b")],
      st.timers.length ≤ 1) ∧
    ((debounceStep 10 (⟨4, [(3, 12, "z")], some 3⟩ : DebounceState String)
        (5, "w")).1.timers = [(4, 5 + 10, "w")] ∧
      (debounceStep 10 (⟨4, [(3, 12, "z")], some 3⟩ : DebounceState String)
        (5, "w")).1.timeoutHandle = some 4) ∧
    (∀ st ∈ throttleStates 10 throttleInit [((0 : Nat), "a"), (5, "b")],
      st.timers.length ≤ 1) ∧
    throttleStep 10 (⟨true, [9]⟩ : ThrottleState) ((5 : Nat), "b")
      = (throttleFire 5 ⟨true, [9]⟩, []) := by
  refine ⟨(single_pending_timer_slot 10 10 [(0, "a"), (5, "b")]).1, ?_, ?_, ?_⟩
  · exact (single_pending_timer_slot 10 10 ([] : List (Nat × String))).2.1
      ⟨4, [(3, 12, "z")], some 3⟩ (5, "w")
      (Or.inr ⟨3, 12, "z", rfl, rfl⟩)
  · exact (single_pending_timer_slot 10 10 [((0 : Nat), "a"), (5, "b")]).2.2.1
  · exact (single_pending_timer_slot (A := String) 10 10 []).2.2.2
      ⟨true, [9]⟩ (5, "b") (by decide)

/-! ## manualChunks (vite.config.ts) -/

/-- Character-list test used to model JS String.prototype.includes:
does pat occur as a prefix of l. -/
def isPre : List Char → List Char → Bool
  | [], _ => true
  | _ :: _, [] => false
  | c :: cs, d :: ds => c == d && isPre cs ds

/-- Does pat occur as a contiguous substring of l. -/
def containsSub : List Char → List Char → Bool
  | [], pat => pat.isEmpty
  | c :: rest, pat => isPre pat (c :: rest) || containsSub rest pat

/-- JS String.prototype.includes as used by manualChunks on module
ids. -/
def includes (s pat : String) : Bool :=
  containsSub s.toList pat.toList

/-- The manualChunks function of the rollup output options: modules
under node_modules are assigned a vendor chunk by substring tests, in
the order of the source, with vendor-misc as the fallback; any other
module gets no manual chunk (undefined). -/
def manualChunks (id : String) : Option String :=
  if includes id "node_modules" then
    if includes id "react" || includes id "react-dom" || includes id "react-router" then
      some "vendor-react"
    else if includes id "antd-mobile" || includes id "antd-mobile-icons" then
      some "vendor-ui"
    else if includes id "i18next" || includes id "react-i18next" then
      some "vendor-i18n"
    else if includes id "nano" || includes id "bip39" || includes id "argon2"
        || includes id "crypto" then
      some "vendor-crypto"
    else if includes id "@capacitor" then
      some "vendor-capacitor"
    else if includes id "firebase" then
      some "vendor-firebase"
    else
      some "vendor-misc"
  else
    none

/-- The seven vendor chunk names of the configuration. -/
def vendorChunkNames : List String :=
  ["vendor-react", "vendor-ui", "vendor-i18n", "vendor-crypto",
   "vendor-capacitor", "vendor-firebase", "vendor-misc"]

/-- C8: every module id containing node_modules is assigned exactly one
of the seven vendor chunk names; an id whose path matches none of the
specific dependency substrings falls through to vendor-misc; an id not
containing node_modules is assigned no chunk. -/
theorem manualChunks_vendor_split (id : String) :
    (includes id "node_modules" = true →
      ∃ c, manualChunks id = some c ∧ c ∈ vendorChunkNames) ∧
    (includes id "node_modules" = true →
      includes id "react" = false → includes id "react-dom" = false →
      includes id "react-router" = false → includes id "antd-mobile" = false →
      includes id "antd-mobile-icons" = false → includes id "i18next" = false →
      includes id "react-i18next" = false → includes id "nano" = false →
      includes id "bip39" = false → includes id "argon2" = false →
      includes id "crypto" = false → includes id "@capacitor" = false →
      includes id "firebase" = false →
      manualChunks id = some "vendor-misc") ∧
    (includes id "node_modules" = false → manualChunks id = none) := by
  refine ⟨?_, ?_, ?_⟩
  · intro h
    unfold manualChunks
    rw [h]
    simp only [if_true]
    split
    · exact ⟨"vendor-react", rfl, by simp [vendorChunkNames]⟩
    · split
      · exact ⟨"vendor-ui", rfl, by simp [vendorChunkNames]⟩
      · split
        · exact ⟨"vendor-i18n", rfl, by simp [vendorChunkNames]⟩
        · split
          · exact ⟨"vendor-crypto", rfl, by simp [vendorChunkNames]⟩
          · split
            · exact ⟨"vendor-capacitor", rfl, by simp [vendorChunkNames]⟩
            · split
              · exact ⟨"vendor-firebase", rfl, by simp [vendorChunkNames]⟩
              · exact ⟨"vendor-misc", rfl, by simp [vendorChunkNames]⟩
  · intro h h1 h2 h3 h4 h5 h6 h7 h8 h9 h10 h11 h12 h13
    unfold manualChunks
    rw [h]
    simp [h1, h2, h3, h4, h5, h6, h7, h8, h9, h10, h11, h12, h13]
  · intro h
    unfold manualChunks
    rw [h]
    simp

/-- Witness for C8: a lodash module under node_modules is assigned a
vendor chunk (vendor-misc via the second conjunct), and a first-party
source file is assigned none. -/
theorem manualChunks_vendor_split_witness :
    manualChunks "/proj/node_modules/lodash/index.js" = some "vendor-misc" ∧
    manualChunks "/proj/src/App.tsx" = none := by
  constructor
  · exact (manualChunks_vendor_split "/proj/node_modules/lodash/index.js").2.1
      (by decide) (by decide) (by decide) (by decide) (by decide) (by decide)
      (by decide) (by decide) (by decide) (by decide) (by decide) (by decide)
      (by decide) (by decide)
  · exact (manualChunks_vendor_split "/proj/src/App.tsx").2.2 (by decide)

/-! ## deepEqual (src/hooks/use-optimized-memo.ts)

JS values as consumed by deepEqual.  Numbers are modelled as integers
(so NaN, whose strict self-comparison is false, is outside the model);
strict equality between two composite values is modelled as false,
which is the reference inequality of independently constructed values,
and loose equality to null holds exactly for null and undefined. -/

inductive JVal where
  | vundef
  | vnull
  | vnum (n : Int)
  | vstr (s : String)
  | vbool (b : Bool)
  | varr (xs : List JVal)
  | vobj (fields : List (String × JVal))

/-- Strict equality a === b of the source, on the model: primitive
values compare by value, composite values by reference (false for the
independently built values of the model). -/
def jsEq : JVal → JVal → Bool
  | .vundef, .vundef => true
  | .vnull, .vnull => true
  | .vnum a, .vnum b => a == b
  | .vstr a, .vstr b => a == b
  | .vbool a, .vbool b => a == b
  | _, _ => false

/-- Loose equality a == null of the source: true for null and
undefined. -/
def isNullish : JVal → Bool
  | .vundef => true
  | .vnull => true
  | _ => false

/-- typeof x === the string object: true for null, arrays and plain
objects. -/
def isObjTy : JVal → Bool
  | .vnull => true
  | .varr _ => true
  | .vobj _ => true
  | _ => false

/-- The decimal digit characters. -/
def digitChar10 (d : Nat) : Char := Char.ofNat (48 + d)

/-- Little-endian decimal digits, with explicit fuel so that the
recursion is structural and reduces inside the kernel. -/
def digitsAux : Nat → Nat → List Nat
  | _, 0 => []
  | 0, _ + 1 => []
  | fuel + 1, n + 1 => (n + 1) % 10 :: digitsAux fuel ((n + 1) / 10)

/-- Little-endian decimal digits of n (empty for 0). -/
def decDigits (n : Nat) : List Nat := digitsAux n n

/-- Value of a little-endian decimal digit list. -/
def ofDigits10 : List Nat → Nat
  | [] => 0
  | d :: ds => d + 10 * ofDigits10 ds

/-- The decimal numeral of n as a character list (the JS string
produced for an array index by Object.keys). -/
def natKeyChars (n : Nat) : List Char :=
  if n = 0 then [digitChar10 0]
  else ((decDigits n).map digitChar10).reverse

/-- The decimal numeral of n as a string. -/
def natKey (n : Nat) : String := String.mk (natKeyChars n)

/-- Object.keys of the source: field names of an object in insertion
order, index strings for an array, empty otherwise. -/
def jKeys : JVal → List String
  | .vobj fs => fs.map Prod.fst
  | .varr xs => (List.range xs.length).map natKey
  | _ => []

/-- Property access a[key] of the source: the first field with the
given name for objects, the element at the decoded index for arrays,
undefined when absent. -/
def jGet : JVal → String → JVal
  | .vobj fs, k =>
    match fs.find? (fun p => p.1 == k) with
    | some p => p.2
    | none => .vundef
  | .varr xs, k =>
    match (List.range xs.length).find? (fun i => natKey i == k) with
    | some i => xs.getD i .vundef
    | none => .vundef
  | _, _ => .vundef

mutual

/-- The deepEqual function of the source.  The branches follow the
source exactly: strict equality, the null/undefined test, the
both-arrays branch (length test, then elementwise recursion), the
both-object-typed branch (Object.keys length test, then recursion on
the values of the first argument keys, looked up in both sides), and
the final false.  For an object, iterating its keys and looking each
one up yields its fields in order, which is the pattern match used
below; for an array in the object branch, its keys are the index
strings. -/
def deepEqual (a b : JVal) : Bool :=
  if jsEq a b then true
  else if isNullish a || isNullish b then false
  else match a, b with
    | .varr xs, .varr ys => (xs.length == ys.length) && deepEqualArr xs ys
    | .vobj fs, b =>
      if isObjTy b then (fs.length == (jKeys b).length) && deepEqualFields fs b
      else false
    | .varr xs, b =>
      if isObjTy b then (xs.length == (jKeys b).length) && deepEqualIdx 0 xs b
      else false
    | _, _ => false
termination_by structural a

/-- The loop for (let i = 0; i < a.length; i++) of the both-arrays
branch, after the length test: b[i] is the i-th element of ys, walked
in lockstep. -/
def deepEqualArr (xs ys : List JVal) : Bool :=
  match xs, ys with
  | [], _ => true
  | x :: xs, ys => deepEqual x (ys.headD .vundef) && deepEqualArr xs ys.tail
termination_by structural xs

/-- The for (const key of keysA) loop when a is an array: key runs over
the index strings of a, a[key] over the elements. -/
def deepEqualIdx (i : Nat) (xs : List JVal) (b : JVal) : Bool :=
  match xs with
  | [] => true
  | x :: xs => deepEqual x (jGet b (natKey i)) && deepEqualIdx (i + 1) xs b
termination_by structural xs

/-- The for (const key of keysA) loop when a is an object: key runs
over the field names of a, a[key] over the field values. -/
def deepEqualFields (fs : List (String × JVal)) (b : JVal) : Bool :=
  match fs with
  | [] => true
  | p :: fs => deepEqual p.2 (jGet b p.1) && deepEqualFields fs b
termination_by structural fs

end

mutual

/-- Size measure used for the induction on JS values. -/
def jSize : JVal → Nat
  | .varr xs => 1 + jSizeList xs
  | .vobj fs => 1 + jSizeFields fs
  | _ => 1

def jSizeList : List JVal → Nat
  | [] => 0
  | x :: xs => jSize x + jSizeList xs

def jSizeFields : List (String × JVal) → Nat
  | [] => 0
  | p :: fs => jSize p.2 + jSizeFields fs

end

/-- True for every value except undefined. -/
def notUndef : JVal → Bool
  | .vundef => false
  | _ => true

mutual

/-- clean v: no array element and no object field value anywhere inside
v is undefined. -/
def clean : JVal → Bool
  | .varr xs => cleanList xs
  | .vobj fs => cleanFields fs
  | _ => true

def cleanList : List JVal → Bool
  | [] => true
  | x :: xs => notUndef x && clean x && cleanList xs

def cleanFields : List (String × JVal) → Bool
  | [] => true
  | p :: fs => notUndef p.2 && clean p.2 && cleanFields fs

end

mutual

/-- wfJ v: every object anywhere inside v has pairwise distinct field
names, as JS objects do. -/
def wfJ : JVal → Bool
  | .varr xs => wfJList xs
  | .vobj fs => decide (fs.map Prod.fst).Nodup && wfJFields fs
  | _ => true

def wfJList : List JVal → Bool
  | [] => true
  | x :: xs => wfJ x && wfJList xs

def wfJFields : List (String × JVal) → Bool
  | [] => true
  | p :: fs => wfJ p.2 && wfJFields fs

end

theorem digitsAux_congr :
    ∀ (f1 f2 n : Nat), n ≤ f1 → n ≤ f2 → digitsAux f1 n = digitsAux f2 n := by
  intro f1
  induction f1 with
  | zero =>
    intro f2 n h1 h2
    have : n = 0 := Nat.le_zero.mp h1
    subst this
    cases f2 <;> rfl
  | succ m ih =>
    intro f2 n h1 h2
    cases n with
    | zero => cases f2 <;> rfl
    | succ k =>
      cases f2 with
      | zero => omega
      | succ g =>
        have hdiv : (k + 1) / 10 ≤ m := by
          have := Nat.div_lt_self (Nat.succ_pos k) (by omega : 1 < 10)
          omega
        have hdiv2 : (k + 1) / 10 ≤ g := by
          have := Nat.div_lt_self (Nat.succ_pos k) (by omega : 1 < 10)
          omega
        show (k + 1) % 10 :: digitsAux m ((k + 1) / 10)
            = (k + 1) % 10 :: digitsAux g ((k + 1) / 10)
        rw [ih g ((k + 1) / 10) hdiv hdiv2]

theorem decDigits_zero : decDigits 0 = [] := rfl

theorem decDigits_succ (n : Nat) (h : n ≠ 0) :
    decDigits n = n % 10 :: decDigits (n / 10) := by
  obtain ⟨k, rfl⟩ := Nat.exists_eq_succ_of_ne_zero h
  show digitsAux (k + 1) (k + 1) = (k + 1) % 10 :: digitsAux ((k + 1) / 10) ((k + 1) / 10)
  have hdiv : (k + 1) / 10 ≤ k := by
    have := Nat.div_lt_self (Nat.succ_pos k) (by omega : 1 < 10)
    omega
  show (k + 1) % 10 :: digitsAux k ((k + 1) / 10)
      = (k + 1) % 10 :: digitsAux ((k + 1) / 10) ((k + 1) / 10)
  rw [digitsAux_congr k ((k + 1) / 10) ((k + 1) / 10) hdiv (Nat.le_refl _)]

theorem ofDigits_decDigits : ∀ n, ofDigits10 (decDigits n) = n := by
  intro n
  induction n using Nat.strong_induction_on with
  | _ n ih =>
    by_cases h : n = 0
    · subst h
      rfl
    · rw [decDigits_succ n h]
      show n % 10 + 10 * ofDigits10 (decDigits (n / 10)) = n
      rw [ih (n / 10) (Nat.div_lt_self (Nat.pos_of_ne_zero h) (by omega))]
      omega

theorem decDigits_inj {m n : Nat} (h : decDigits m = decDigits n) : m = n := by
  have := ofDigits_decDigits m
  rw [h, ofDigits_decDigits] at this
  omega

theorem decDigits_lt_10 : ∀ n, ∀ d ∈ decDigits n, d < 10 := by
  intro n
  induction n using Nat.strong_induction_on with
  | _ n ih =>
    intro d hd
    by_cases h : n = 0
    · subst h
      simp [decDigits_zero] at hd
    · rw [decDigits_succ n h] at hd
      rcases List.mem_cons.mp hd with rfl | hd
      · omega
      · exact ih (n / 10) (Nat.div_lt_self (Nat.pos_of_ne_zero h) (by omega)) d hd

theorem digitChar10_inj_aux :
    ∀ d1 : Nat, d1 < 10 → ∀ d2 : Nat, d2 < 10 →
      digitChar10 d1 = digitChar10 d2 → d1 = d2 := by
  decide

theorem digitChar10_inj (d1 d2 : Nat) (h1 : d1 < 10) (h2 : d2 < 10)
    (h : digitChar10 d1 = digitChar10 d2) : d1 = d2 :=
  digitChar10_inj_aux d1 h1 d2 h2 h

theorem map_digitChar10_inj :
    ∀ (l1 l2 : List Nat), (∀ d ∈ l1, d < 10) → (∀ d ∈ l2, d < 10) →
      l1.map digitChar10 = l2.map digitChar10 → l1 = l2 := by
  intro l1
  induction l1 with
  | nil =>
    intro l2 _ _ h
    cases l2 with
    | nil => rfl
    | cons d ds => simp at h
  | cons d ds ih =>
    intro l2 hb1 hb2 h
    cases l2 with
    | nil => simp at h
    | cons e es =>
      simp only [List.map_cons, List.cons.injEq] at h
      have hd := digitChar10_inj d e (hb1 d (by simp)) (hb2 e (by simp)) h.1
      rw [hd, ih es (fun x hx => hb1 x (by simp [hx])) (fun x hx => hb2 x (by simp [hx])) h.2]

theorem natKeyChars_inj : ∀ m n : Nat, natKeyChars m = natKeyChars n → m = n := by
  have single : ∀ n : Nat, n ≠ 0 →
      ((decDigits n).map digitChar10).reverse = [digitChar10 0] → False := by
    intro n hn h
    have h2 : (decDigits n).map digitChar10 = [digitChar10 0] := by
      have := congrArg List.reverse h
      simpa using this
    have h3 : decDigits n = [0] := by
      cases hd : decDigits n with
      | nil => rw [hd] at h2; simp at h2
      | cons d ds =>
        rw [hd] at h2
        cases ds with
        | nil =>
          simp only [List.map_cons, List.map_nil, List.cons.injEq] at h2
          have hdn : d < 10 := decDigits_lt_10 n d (by rw [hd]; simp)
          have := digitChar10_inj d 0 hdn (by omega) h2.1
          rw [this]
        | cons e es => simp at h2
    have := ofDigits_decDigits n
    rw [h3] at this
    simp [ofDigits10] at this
    omega
  intro m n h
  unfold natKeyChars at h
  by_cases hm : m = 0 <;> by_cases hn : n = 0
  · omega
  · rw [if_pos hm, if_neg hn] at h
    exact absurd h.symm (fun hh => single n hn hh)
  · rw [if_neg hm, if_pos hn] at h
    exact absurd h (fun hh => single m hm hh)
  · rw [if_neg hm, if_neg hn] at h
    have h2 := congrArg List.reverse h
    simp only [List.reverse_reverse] at h2
    exact decDigits_inj (map_digitChar10_inj _ _ (decDigits_lt_10 m) (decDigits_lt_10 n) h2)

theorem natKey_injective : Function.Injective natKey := by
  intro m n h
  unfold natKey at h
  exact natKeyChars_inj m n (by injection h)

theorem find?_natKey_of_mem :
    ∀ (l : List Nat) (j : Nat), j ∈ l →
      l.find? (fun i => natKey i == natKey j) = some j := by
  intro l j hj
  induction l with
  | nil => cases hj
  | cons x xs ih =>
    by_cases hx : x = j
    · subst hx
      rw [List.find?_cons_of_pos _ (by simp)]
    · rw [List.find?_cons_of_neg _ ?_]
      · exact ih (by
          rcases List.mem_cons.mp hj with rfl | h
          · exact absurd rfl hx
          · exact h)
      · simp only [beq_iff_eq]
        intro hcon
        exact hx (natKey_injective hcon)

theorem find?_natKey_range {n j : Nat} (hj : j < n) :
    (List.range n).find? (fun i => natKey i == natKey j) = some j :=
  find?_natKey_of_mem (List.range n) j (List.mem_range.mpr hj)

theorem find?_key_eq_some {fs : List (String × JVal)} {q : String × JVal}
    (hnodup : (fs.map Prod.fst).Nodup) (hq : q ∈ fs) :
    fs.find? (fun p => p.1 == q.1) = some q := by
  induction fs with
  | nil => cases hq
  | cons p rest ih =>
    rw [List.map_cons, List.nodup_cons] at hnodup
    rcases List.mem_cons.mp hq with rfl | hq2
    · rw [List.find?_cons_of_pos _ (by simp)]
    · by_cases hk : p.1 = q.1
      · exfalso
        exact hnodup.1 (hk ▸ List.mem_map.mpr ⟨q, hq2, rfl⟩)
      · rw [List.find?_cons_of_neg _ (by simpa using hk)]
        exact ih hnodup.2 hq2

theorem getD_mem_of_lt {l : List JVal} {j : Nat} (h : j < l.length) :
    l.getD j JVal.vundef ∈ l := by
  rw [List.getD_eq_getElem l JVal.vundef h]
  exact List.getElem_mem h

/-- The key-value pairs an object-typed value exposes through
Object.keys and property access, in key order. -/
def jEntries : JVal → List (String × JVal)
  | .vobj fs => fs
  | .varr xs => (List.range xs.length).map (fun j => (natKey j, xs.getD j JVal.vundef))
  | _ => []

theorem jKeys_eq_entries_keys (a : JVal) :
    jKeys a = (jEntries a).map Prod.fst := by
  cases a <;> simp [jKeys, jEntries]

theorem jGet_entries {a : JVal} {p : String × JVal}
    (hwf : wfJ a = true) (hp : p ∈ jEntries a) :
    jGet a p.1 = p.2 := by
  cases a with
  | vobj fs =>
    rw [wfJ, Bool.and_eq_true, decide_eq_true_iff] at hwf
    simp only [jEntries] at hp
    simp [jGet, find?_key_eq_some hwf.1 hp]
  | varr xs =>
    simp only [jEntries, List.mem_map, List.mem_range] at hp
    obtain ⟨j, hj, rfl⟩ := hp
    simp [jGet, find?_natKey_range hj]
  | vundef => cases hp
  | vnull => cases hp
  | vnum n => cases hp
  | vstr s => cases hp
  | vbool b => cases hp

theorem jGet_not_mem {a : JVal} {k : String} (h : k ∉ jKeys a) :
    jGet a k = JVal.vundef := by
  cases a with
  | vobj fs =>
    cases hf : fs.find? (fun p => p.1 == k) with
    | none => simp [jGet, hf]
    | some q =>
      exfalso
      have hq := List.mem_of_find?_eq_some hf
      have heq : q.1 = k := by simpa using List.find?_some hf
      exact h (by
        simp only [jKeys, List.mem_map]
        exact ⟨q, hq, heq⟩)
  | varr xs =>
    cases hf : (List.range xs.length).find? (fun i => natKey i == k) with
    | none => simp [jGet, hf]
    | some i =>
      exfalso
      have hi := List.mem_of_find?_eq_some hf
      have heq : natKey i = k := by simpa using List.find?_some hf
      exact h (by
        simp only [jKeys, List.mem_map]
        exact ⟨i, hi, heq⟩)
  | vundef => rfl
  | vnull => rfl
  | vnum n => rfl
  | vstr s => rfl
  | vbool b => rfl

theorem jKeys_nodup {a : JVal} (hwf : wfJ a = true) : (jKeys a).Nodup := by
  cases a with
  | vobj fs =>
    rw [wfJ, Bool.and_eq_true, decide_eq_true_iff] at hwf
    exact hwf.1
  | varr xs => exact (List.nodup_range _).map natKey_injective
  | vundef => exact List.nodup_nil
  | vnull => exact List.nodup_nil
  | vnum n => exact List.nodup_nil
  | vstr s => exact List.nodup_nil
  | vbool b => exact List.nodup_nil

theorem cleanList_mem :
    ∀ {xs : List JVal}, cleanList xs = true →
      ∀ x ∈ xs, notUndef x = true ∧ clean x = true := by
  intro xs hc x hx
  induction xs with
  | nil => cases hx
  | cons y rest ih =>
    rw [cleanList, Bool.and_eq_true, Bool.and_eq_true] at hc
    rcases List.mem_cons.mp hx with rfl | hx2
    · exact ⟨hc.1.1, hc.1.2⟩
    · exact ih hc.2 hx2

theorem cleanFields_mem :
    ∀ {fs : List (String × JVal)}, cleanFields fs = true →
      ∀ p ∈ fs, notUndef p.2 = true ∧ clean p.2 = true := by
  intro fs hc p hp
  induction fs with
  | nil => cases hp
  | cons q rest ih =>
    rw [cleanFields, Bool.and_eq_true, Bool.and_eq_true] at hc
    rcases List.mem_cons.mp hp with rfl | hp2
    · exact ⟨hc.1.1, hc.1.2⟩
    · exact ih hc.2 hp2

theorem wfJList_mem :
    ∀ {xs : List JVal}, wfJList xs = true → ∀ x ∈ xs, wfJ x = true := by
  intro xs hw x hx
  induction xs with
  | nil => cases hx
  | cons y rest ih =>
    rw [wfJList, Bool.and_eq_true] at hw
    rcases List.mem_cons.mp hx with rfl | hx2
    · exact hw.1
    · exact ih hw.2 hx2

theorem wfJFields_mem :
    ∀ {fs : List (String × JVal)}, wfJFields fs = true →
      ∀ p ∈ fs, wfJ p.2 = true := by
  intro fs hw p hp
  induction fs with
  | nil => cases hp
  | cons q rest ih =>
    rw [wfJFields, Bool.and_eq_true] at hw
    rcases List.mem_cons.mp hp with rfl | hp2
    · exact hw.1
    · exact ih hw.2 hp2

theorem clean_entries {a : JVal} {p : String × JVal}
    (hc : clean a = true) (hp : p ∈ jEntries a) :
    notUndef p.2 = true ∧ clean p.2 = true := by
  cases a with
  | vobj fs =>
    rw [clean] at hc
    exact cleanFields_mem hc p hp
  | varr xs =>
    rw [clean] at hc
    simp only [jEntries, List.mem_map, List.mem_range] at hp
    obtain ⟨j, hj, rfl⟩ := hp
    exact cleanList_mem hc _ (getD_mem_of_lt hj)
  | vundef => cases hp
  | vnull => cases hp
  | vnum n => cases hp
  | vstr s => cases hp
  | vbool b => cases hp

theorem wfJ_entries {a : JVal} {p : String × JVal}
    (hw : wfJ a = true) (hp : p ∈ jEntries a) : wfJ p.2 = true := by
  cases a with
  | vobj fs =>
    rw [wfJ, Bool.and_eq_true] at hw
    exact wfJFields_mem hw.2 p hp
  | varr xs =>
    rw [wfJ] at hw
    simp only [jEntries, List.mem_map, List.mem_range] at hp
    obtain ⟨j, hj, rfl⟩ := hp
    exact wfJList_mem hw _ (getD_mem_of_lt hj)
  | vundef => cases hp
  | vnull => cases hp
  | vnum n => cases hp
  | vstr s => cases hp
  | vbool b => cases hp

theorem jSize_pos (v : JVal) : 1 ≤ jSize v := by
  cases v <;> simp [jSize]

theorem jSizeList_mem : ∀ {xs : List JVal} {x : JVal}, x ∈ xs →
    jSize x ≤ jSizeList xs := by
  intro xs x hx
  induction xs with
  | nil => cases hx
  | cons y rest ih =>
    rw [jSizeList]
    rcases List.mem_cons.mp hx with rfl | hx2
    · omega
    · have := ih hx2
      omega

theorem jSizeFields_mem : ∀ {fs : List (String × JVal)} {p : String × JVal},
    p ∈ fs → jSize p.2 ≤ jSizeFields fs := by
  intro fs p hp
  induction fs with
  | nil => cases hp
  | cons q rest ih =>
    rw [jSizeFields]
    rcases List.mem_cons.mp hp with rfl | hp2
    · omega
    · have := ih hp2
      omega

theorem jSize_entries {a : JVal} {p : String × JVal} (hp : p ∈ jEntries a) :
    jSize p.2 < jSize a := by
  cases a with
  | vobj fs =>
    simp only [jEntries] at hp
    have := jSizeFields_mem hp
    rw [jSize]
    omega
  | varr xs =>
    simp only [jEntries, List.mem_map, List.mem_range] at hp
    obtain ⟨j, hj, rfl⟩ := hp
    have := jSizeList_mem (getD_mem_of_lt hj)
    simp only
    rw [jSize]
    omega
  | vundef => cases hp
  | vnull => cases hp
  | vnum n => cases hp
  | vstr s => cases hp
  | vbool b => cases hp

theorem jSize_mem_varr {xs : List JVal} {x : JVal} (hx : x ∈ xs) :
    jSize x < jSize (JVal.varr xs) := by
  have := jSizeList_mem hx
  rw [jSize]
  omega

theorem jsEq_symm (a b : JVal) : jsEq a b = jsEq b a := by
  cases a <;> cases b <;> simp [jsEq] <;> exact eq_comm

theorem deepEqual_of_jsEq {a b : JVal} (h : jsEq a b = true) :
    deepEqual a b = true := by
  cases a <;> cases b <;> simp [jsEq] at h <;>
    first
    | rfl
    | (subst h; simp [deepEqual, jsEq])

theorem deepEqual_varr_varr (xs ys : List JVal) :
    deepEqual (JVal.varr xs) (JVal.varr ys)
      = ((xs.length == ys.length) && deepEqualArr xs ys) := by
  simp [deepEqual, jsEq, isNullish]

theorem deepEqual_vobj_vobj (fs gs : List (String × JVal)) :
    deepEqual (JVal.vobj fs) (JVal.vobj gs)
      = ((fs.length == gs.length) && deepEqualFields fs (JVal.vobj gs)) := by
  simp [deepEqual, jsEq, isNullish, isObjTy, jKeys]

theorem deepEqual_vobj_varr (fs : List (String × JVal)) (ys : List JVal) :
    deepEqual (JVal.vobj fs) (JVal.varr ys)
      = ((fs.length == ys.length) && deepEqualFields fs (JVal.varr ys)) := by
  simp [deepEqual, jsEq, isNullish, isObjTy, jKeys]

theorem deepEqual_varr_vobj (xs : List JVal) (gs : List (String × JVal)) :
    deepEqual (JVal.varr xs) (JVal.vobj gs)
      = ((xs.length == gs.length) && deepEqualIdx 0 xs (JVal.vobj gs)) := by
  simp [deepEqual, jsEq, isNullish, isObjTy, jKeys]

theorem deepEqual_vundef_right {x : JVal} (h : notUndef x = true) :
    deepEqual x JVal.vundef = false := by
  cases x <;> simp_all [notUndef, deepEqual, jsEq, isNullish]

theorem deepEqualFields_iff (b : JVal) :
    ∀ fs : List (String × JVal),
      deepEqualFields fs b = true ↔
        ∀ p ∈ fs, deepEqual p.2 (jGet b p.1) = true := by
  intro fs
  induction fs with
  | nil => simp [deepEqualFields]
  | cons p rest ih =>
    rw [deepEqualFields, Bool.and_eq_true, ih]
    constructor
    · rintro ⟨h0, hrest⟩ q hq
      rcases List.mem_cons.mp hq with rfl | hq2
      · exact h0
      · exact hrest q hq2
    · intro h
      exact ⟨h p (by simp), fun q hq => h q (by simp [hq])⟩

theorem deepEqualIdx_iff (b : JVal) :
    ∀ (xs : List JVal) (i : Nat),
      deepEqualIdx i xs b = true ↔
        ∀ j, j < xs.length →
          deepEqual (xs.getD j JVal.vundef) (jGet b (natKey (i + j))) = true := by
  intro xs
  induction xs with
  | nil =>
    intro i
    simp [deepEqualIdx]
  | cons x rest ih =>
    intro i
    rw [deepEqualIdx, Bool.and_eq_true, ih (i + 1)]
    constructor
    · rintro ⟨h0, hrest⟩ j hj
      cases j with
      | zero => simpa using h0
      | succ j2 =>
        have := hrest j2 (by simpa using hj)
        rw [List.getD_cons_succ]
        have harith : i + 1 + j2 = i + (j2 + 1) := by omega
        rw [harith] at this
        exact this
    · intro h
      refine ⟨by simpa using h 0 (by simp), ?_⟩
      intro j hj
      have := h (j + 1) (by simp; omega)
      rw [List.getD_cons_succ] at this
      have harith : i + (j + 1) = i + 1 + j := by omega
      rw [harith] at this
      exact this

theorem deepEqualArr_iff :
    ∀ (xs ys : List JVal), xs.length = ys.length →
      (deepEqualArr xs ys = true ↔
        ∀ j, j < xs.length →
          deepEqual (xs.getD j JVal.vundef) (ys.getD j JVal.vundef) = true) := by
  intro xs
  induction xs with
  | nil =>
    intro ys hlen
    simp [deepEqualArr]
  | cons x rest ih =>
    intro ys hlen
    cases ys with
    | nil => simp at hlen
    | cons y rest2 =>
      rw [deepEqualArr, Bool.and_eq_true]
      simp only [List.headD_cons, List.tail_cons]
      rw [ih rest2 (by simpa using hlen)]
      constructor
      · rintro ⟨h0, hrest⟩ j hj
        cases j with
        | zero => simpa using h0
        | succ j2 =>
          rw [List.getD_cons_succ, List.getD_cons_succ]
          exact hrest j2 (by simpa using hj)
      · intro h
        refine ⟨by simpa using h 0 (by simp), ?_⟩
        intro j hj
        have := h (j + 1) (by simp; omega)
        rw [List.getD_cons_succ, List.getD_cons_succ] at this
        exact this

theorem deepEqualIdx_entries_iff (xs : List JVal) (b : JVal) :
    deepEqualIdx 0 xs b = true ↔
      ∀ p ∈ jEntries (JVal.varr xs), deepEqual p.2 (jGet b p.1) = true := by
  rw [deepEqualIdx_iff b xs 0]
  simp only [jEntries, List.mem_map, List.mem_range]
  constructor
  · rintro h p ⟨j, hj, rfl⟩
    simpa using h j hj
  · intro h j hj
    have := h (natKey j, xs.getD j JVal.vundef) ⟨j, hj, rfl⟩
    simpa using this

/-- Core step of the symmetry argument for the object branch: if the
two sides expose equally many keys, and every key of a maps to values
that compare deeply equal, then (for undefined-free well-formed values)
the key sets coincide, and by the inductive flip every key of b
compares deeply equal in the reversed order. -/
theorem entries_symm_step {a b : JVal}
    (IH : ∀ x y : JVal, jSize x < jSize a →
      clean x = true → clean y = true → wfJ x = true → wfJ y = true →
      deepEqual x y = true → deepEqual y x = true)
    (hca : clean a = true) (hcb : clean b = true)
    (hwa : wfJ a = true) (hwb : wfJ b = true)
    (hlen : (jKeys a).length = (jKeys b).length)
    (hloop : ∀ p ∈ jEntries a, deepEqual p.2 (jGet b p.1) = true) :
    ∀ q ∈ jEntries b, deepEqual q.2 (jGet a q.1) = true := by
  have hsub : jKeys a ⊆ jKeys b := by
    intro k hk
    rw [jKeys_eq_entries_keys] at hk
    obtain ⟨p, hp, rfl⟩ := List.mem_map.mp hk
    by_contra hnotb
    have hget := jGet_not_mem hnotb
    have h1 := hloop p hp
    rw [hget] at h1
    rw [deepEqual_vundef_right (clean_entries hca hp).1] at h1
    cases h1
  have hperm : (jKeys a).Perm (jKeys b) :=
    (List.subperm_of_subset (jKeys_nodup hwa) hsub).perm_of_length_le (by omega)
  intro q hq
  have hkb : q.1 ∈ jKeys b := by
    rw [jKeys_eq_entries_keys]
    exact List.mem_map.mpr ⟨q, hq, rfl⟩
  have hka : q.1 ∈ jKeys a := hperm.mem_iff.mpr hkb
  rw [jKeys_eq_entries_keys] at hka
  obtain ⟨p, hp, hpq⟩ := List.mem_map.mp hka
  have hga : jGet a q.1 = p.2 := by
    rw [← hpq]
    exact jGet_entries hwa hp
  have hgb : jGet b p.1 = q.2 := by
    rw [hpq]
    exact jGet_entries hwb hq
  have h1 := hloop p hp
  rw [hgb] at h1
  rw [hga]
  exact IH p.2 q.2 (jSize_entries hp)
    (clean_entries hca hp).2 (clean_entries hcb hq).2
    (wfJ_entries hwa hp) (wfJ_entries hwb hq) h1

theorem deepEqual_true_cases {a b : JVal} (h : deepEqual a b = true) :
    jsEq a b = true ∨
    (∃ xs ys, a = JVal.varr xs ∧ b = JVal.varr ys) ∨
    (∃ fs, a = JVal.vobj fs ∧ isObjTy b = true ∧ isNullish b = false) ∨
    (∃ xs, a = JVal.varr xs ∧ isObjTy b = true ∧ isNullish b = false) := by
  cases a <;> cases b <;>
    simp_all [deepEqual, jsEq, isNullish, isObjTy]

theorem deepEqual_symm_mp :
    ∀ (N : Nat) (a b : JVal), jSize a ≤ N →
      clean a = true → clean b = true → wfJ a = true → wfJ b = true →
      deepEqual a b = true → deepEqual b a = true := by
  intro N
  induction N with
  | zero =>
    intro a b hsz
    have := jSize_pos a
    omega
  | succ n ih =>
    intro a b hsz hca hcb hwa hwb hab
    have IH : ∀ x y : JVal, jSize x < jSize a →
        clean x = true → clean y = true → wfJ x = true → wfJ y = true →
        deepEqual x y = true → deepEqual y x = true := by
      intro x y hx
      exact ih x y (by omega)
    rcases deepEqual_true_cases hab with hjs | ⟨xs, ys, rfl, rfl⟩ |
        ⟨fs, rfl, hob, hnb⟩ | ⟨xs, rfl, hob, hnb⟩
    · exact deepEqual_of_jsEq (by rw [jsEq_symm]; exact hjs)
    · -- both arrays
      rw [deepEqual_varr_varr, Bool.and_eq_true, beq_iff_eq] at hab
      obtain ⟨hlen, harr⟩ := hab
      rw [deepEqualArr_iff xs ys hlen] at harr
      rw [deepEqual_varr_varr, Bool.and_eq_true]
      refine ⟨by simp [hlen], ?_⟩
      rw [deepEqualArr_iff ys xs hlen.symm]
      intro j hj
      have hjx : j < xs.length := by omega
      refine IH (xs.getD j JVal.vundef) (ys.getD j JVal.vundef)
        (jSize_mem_varr (getD_mem_of_lt hjx)) ?_ ?_ ?_ ?_ (harr j hjx)
      · exact (cleanList_mem (by rw [clean] at hca; exact hca) _
          (getD_mem_of_lt hjx)).2
      · exact (cleanList_mem (by rw [clean] at hcb; exact hcb) _
          (getD_mem_of_lt hj)).2
      · exact wfJList_mem (by rw [wfJ] at hwa; exact hwa) _ (getD_mem_of_lt hjx)
      · exact wfJList_mem (by rw [wfJ] at hwb; exact hwb) _ (getD_mem_of_lt hj)
    · -- a is an object
      cases b with
      | vobj gs =>
        rw [deepEqual_vobj_vobj, Bool.and_eq_true, beq_iff_eq] at hab
        obtain ⟨hlen, hflds⟩ := hab
        rw [deepEqualFields_iff] at hflds
        have hloop : ∀ p ∈ jEntries (JVal.vobj fs),
            deepEqual p.2 (jGet (JVal.vobj gs) p.1) = true := by
          simpa [jEntries] using hflds
        have hkeys : (jKeys (JVal.vobj fs)).length
            = (jKeys (JVal.vobj gs)).length := by
          simp [jKeys, hlen]
        have hrev := entries_symm_step IH hca hcb hwa hwb hkeys hloop
        rw [deepEqual_vobj_vobj, Bool.and_eq_true]
        refine ⟨by simp [hlen], ?_⟩
        rw [deepEqualFields_iff]
        intro q hq
        exact hrev q (by simpa [jEntries] using hq)
      | varr ys =>
        rw [deepEqual_vobj_varr, Bool.and_eq_true, beq_iff_eq] at hab
        obtain ⟨hlen, hflds⟩ := hab
        rw [deepEqualFields_iff] at hflds
        have hloop : ∀ p ∈ jEntries (JVal.vobj fs),
            deepEqual p.2 (jGet (JVal.varr ys) p.1) = true := by
          simpa [jEntries] using hflds
        have hkeys : (jKeys (JVal.vobj fs)).length
            = (jKeys (JVal.varr ys)).length := by
          simp [jKeys, hlen]
        have hrev := entries_symm_step IH hca hcb hwa hwb hkeys hloop
        rw [deepEqual_varr_vobj, Bool.and_eq_true]
        refine ⟨by simp [hlen], ?_⟩
        rw [deepEqualIdx_entries_iff]
        exact hrev
      | vundef => simp [isNullish] at hnb
      | vnull => simp [isNullish] at hnb
      | vnum m => simp [isObjTy] at hob
      | vstr s => simp [isObjTy] at hob
      | vbool c => simp [isObjTy] at hob
    · -- a is an array compared through the object branch
      cases b with
      | vobj gs =>
        rw [deepEqual_varr_vobj, Bool.and_eq_true, beq_iff_eq] at hab
        obtain ⟨hlen, hidx⟩ := hab
        rw [deepEqualIdx_entries_iff] at hidx
        have hkeys : (jKeys (JVal.varr xs)).length
            = (jKeys (JVal.vobj gs)).length := by
          simp [jKeys, hlen]
        have hrev := entries_symm_step IH hca hcb hwa hwb hkeys hidx
        rw [deepEqual_vobj_varr, Bool.and_eq_true]
        refine ⟨by simp [hlen], ?_⟩
        rw [deepEqualFields_iff]
        intro q hq
        exact hrev q (by simpa [jEntries] using hq)
      | varr ys =>
        rw [deepEqual_varr_varr, Bool.and_eq_true, beq_iff_eq] at hab
        obtain ⟨hlen, harr⟩ := hab
        rw [deepEqualArr_iff xs ys hlen] at harr
        rw [deepEqual_varr_varr, Bool.and_eq_true]
        refine ⟨by simp [hlen], ?_⟩
        rw [deepEqualArr_iff ys xs hlen.symm]
        intro j hj
        have hjx : j < xs.length := by omega
        refine IH (xs.getD j JVal.vundef) (ys.getD j JVal.vundef)
          (jSize_mem_varr (getD_mem_of_lt hjx)) ?_ ?_ ?_ ?_ (harr j hjx)
        · exact (cleanList_mem (by rw [clean] at hca; exact hca) _
            (getD_mem_of_lt hjx)).2
        · exact (cleanList_mem (by rw [clean] at hcb; exact hcb) _
            (getD_mem_of_lt hj)).2
        · exact wfJList_mem (by rw [wfJ] at hwa; exact hwa) _ (getD_mem_of_lt hjx)
        · exact wfJList_mem (by rw [wfJ] at hwb; exact hwb) _ (getD_mem_of_lt hj)
      | vundef => simp [isNullish] at hnb
      | vnull => simp [isNullish] at hnb
      | vnum m => simp [isObjTy] at hob
      | vstr s => simp [isObjTy] at hob
      | vbool c => simp [isObjTy] at hob

/-- C9 counterexample: deepEqual is not symmetric.  With a = the object
with key x mapped to undefined and b = the object with key y mapped to
1, deepEqual a b iterates the keys of a and compares a.x = undefined
with b.x = undefined, returning true, while deepEqual b a compares b.y
= 1 with a.y = undefined, returning false. -/
theorem deepEqual_not_symmetric :
    deepEqual (JVal.vobj [("x", JVal.vundef)]) (JVal.vobj [("y", JVal.vnum 1)])
      ≠ deepEqual (JVal.vobj [("y", JVal.vnum 1)]) (JVal.vobj [("x", JVal.vundef)]) := by
  decide

/-- C9 amended: deepEqual is symmetric on values that contain no
undefined array element or object field value and whose objects have
pairwise distinct keys (every value JSON can produce is of this
shape). -/
theorem deepEqual_symm_of_clean (a b : JVal)
    (hca : clean a = true) (hcb : clean b = true)
    (hwa : wfJ a = true) (hwb : wfJ b = true) :
    deepEqual a b = deepEqual b a := by
  cases hab : deepEqual a b with
  | true =>
    exact (deepEqual_symm_mp (jSize a) a b (Nat.le_refl _)
      hca hcb hwa hwb hab).symm
  | false =>
    cases hba : deepEqual b a with
    | false => rfl
    | true =>
      have h2 := deepEqual_symm_mp (jSize b) b a (Nat.le_refl _)
        hcb hca hwb hwa hba
      rw [h2] at hab
      cases hab

/-- Witness for the amended C9 at two concrete undefined-free
objects with distinct key sets (both directions are false). -/
theorem deepEqual_symm_of_clean_witness :
    deepEqual (JVal.vobj [("x", JVal.vnum 1)]) (JVal.vobj [("y", JVal.vnum 2)])
      = deepEqual (JVal.vobj [("y", JVal.vnum 2)]) (JVal.vobj [("x", JVal.vnum 1)]) :=
  deepEqual_symm_of_clean (JVal.vobj [("x", JVal.vnum 1)])
    (JVal.vobj [("y", JVal.vnum 2)]) (by decide) (by decide) (by decide) (by decide)
